import Mathlib

/-!
Verification of the canvas2markdown conversion core.

The repository converts browser-selected HTML into lint-compliant Markdown.
Its authored logic lives in `src/src/App.tsx` (language detection, a
post-processing pass of six sequential JavaScript `String.replace` rewrites,
and a conversion facade) and in `src/unnamed/part_001` (an alternative
implementation with explicit turndown rules).  This file gives a shallow
embedding of those functions on `String`/`List Char` and proves or refutes
the frozen claims about them.

The JavaScript regex rewrites are embedded by a left-to-right scanner
(`scan`) that mirrors `String.replace` with a global regex: it walks the
original string, attempts the (hand-compiled, deterministic) pattern at each
position, and on a match emits the replacement and resumes after the matched
text, exactly as the JS `lastIndex` mechanics do.  Multiline `^`/`$`
anchoring is threaded through as a line-start flag / line-terminator test.
-/

/-- JavaScript `\s` / `String.prototype.trim` whitespace class. -/
def isJsWs (c : Char) : Bool :=
  c == ' ' || c == '\t' || c == '\n' || c == '\r' || c == '\x0b' || c == '\x0c' ||
  c == ' ' || c == ' ' || (' ' ≤ c && c ≤ ' ') ||
  c == ' ' || c == ' ' || c == ' ' || c == ' ' ||
  c == '　' || c == '﻿'

/-- JavaScript regex line terminators (`^`/`$` boundaries in multiline mode). -/
def isLineTerm (c : Char) : Bool :=
  c == '\n' || c == '\r' || c == ' ' || c == ' '

/-- JavaScript `\w` word character class. -/
def isWordChar (c : Char) : Bool :=
  ('a' ≤ c && c ≤ 'z') || ('A' ≤ c && c ≤ 'Z') || ('0' ≤ c && c ≤ '9') || c == '_'

/-- JavaScript `String.prototype.trim` on a character list. -/
def jsTrimL (l : List Char) : List Char :=
  ((l.dropWhile isJsWs).reverse.dropWhile isJsWs).reverse

/-- JavaScript `String.prototype.trim`. -/
def jsTrim (s : String) : String :=
  String.mk (jsTrimL s.data)

/-- JavaScript `s.split('\n')[0]`: the text before the first `'\n'`. -/
def firstLineOf (l : List Char) : List Char :=
  l.takeWhile (fun c => c != '\n')

/-- Substring test (JavaScript `String.prototype.includes`). -/
def containsSub (pat : List Char) : List Char → Bool
  | [] => pat.isEmpty
  | c :: cs => pat.isPrefixOf (c :: cs) || containsSub pat cs

/-- Regex `/^kw\b/.test(line)`: `line` starts with `kw` followed by a word boundary. -/
def startsWithKw (kw : List Char) (line : List Char) : Bool :=
  kw.isPrefixOf line &&
    (match line.drop kw.length with
     | [] => true
     | c :: _ => !isWordChar c)

/-- Whether `line` starts with one of the keywords, each followed by a word boundary. -/
def startsWithAnyKw (kws : List String) (line : List Char) : Bool :=
  kws.any (fun k => startsWithKw k.data line)

/-- Shell command verbs from `App.tsx:23` / `part_001:19`. -/
def shellKws : List String :=
  ["npm", "npx", "yarn", "pnpm", "cd", "ls", "git", "docker", "curl", "wget",
   "brew", "sudo", "apt", "yum", "echo", "cat", "grep", "pip", "python", "node"]

/-- JavaScript keywords from `App.tsx:25` / `part_001:20`. -/
def jsKws : List String :=
  ["import", "export", "const", "let", "var", "function", "class", "async", "interface", "type"]

/-- Python keywords from `App.tsx:28` / `part_001:21`. -/
def pyKws : List String :=
  ["def", "class", "import", "from", "if __name__"]

/-- Regex `/^(body|div|span|h[1-6]|#|\.)/.test(firstLine)` from `App.tsx:33`. -/
def cssStart (line : List Char) : Bool :=
  ("body".data).isPrefixOf line || ("div".data).isPrefixOf line || ("span".data).isPrefixOf line ||
  (match line with
   | 'h' :: d :: _ => '1' ≤ d && d ≤ '6'
   | _ => false) ||
  (match line with
   | '#' :: _ => true
   | '.' :: _ => true
   | _ => false)

/-- Function `detectLanguage` from `App.tsx:17-36` (identical in `part_001:14-26`):
heuristic cascade classifying a code snippet's language. -/
def detectLanguage (code : String) : String :=
  let trimmed := jsTrimL code.data
  if trimmed.isEmpty then "text" else
  let firstLine := jsTrimL (firstLineOf trimmed)
  if (match firstLine with | '$' :: _ => true | _ => false) ||
      startsWithAnyKw shellKws firstLine then
    "shell"
  else if startsWithAnyKw jsKws firstLine || containsSub ("console.log".data) trimmed ||
      containsSub ("=>".data) trimmed || containsSub ("document.getElementById".data) trimmed then
    "javascript"
  else if startsWithAnyKw pyKws firstLine ||
      (firstLine.contains ':' && !firstLine.contains '\x7b' && !firstLine.contains ';') then
    "python"
  else if (match trimmed with | '<' :: _ => true | _ => false) &&
      trimmed.getLast? == some '>' then
    "html"
  else if (match trimmed with | '\x7b' :: _ => true | _ => false) &&
      trimmed.getLast? == some '\x7d' then
    "json"
  else if trimmed.contains '\x7b' && cssStart firstLine then
    "css"
  else
    "shell"

/-- Greedy `(\s*)$` backtracking: split a whitespace run `tw` at its last
line terminator, so that `$` (multiline) matches right after the returned
first component.  `none` when `tw` has no line terminator. -/
def cutAtLastTerm : List Char → Option (List Char × List Char)
  | [] => none
  | c :: cs =>
    match cutAtLastTerm cs with
    | some (a, b) => some (c :: a, b)
    | none => if isLineTerm c then some ([], c :: cs) else none

/-- A matcher returns `some (replacement, rest, restLineStart)` when the
rule's regex matches at the start of the input (`rest` is the original text
after the matched region, `restLineStart` tells whether the next scan
position sits right after a line terminator), `none` otherwise. -/
abbrev Matcher := List Char → Bool → Option (List Char × List Char × Bool)

/-- JavaScript `String.replace` with a global regex: scan left to right over the
original string, emitting replacements and resuming after each match.
`fuel` only needs to be at least the input length (each step consumes at
least one character). -/
def scan (m : Matcher) : Nat → List Char → Bool → List Char
  | _, [], _ => []
  | 0, s, _ => s
  | fuel + 1, c :: cs, ls =>
    match m (c :: cs) ls with
    | some (rep, rest, ls') => rep ++ scan m fuel rest ls'
    | none => c :: scan m fuel cs (isLineTerm c)

/-- Rule 1 of `postProcessMarkdown` (`App.tsx:43`):
`/^(\s*)\*\*([^*\n]+)\*\*(\s*)$/gm` replaced by `'$1### $2$3'`. -/
def emphasisMatcher : Matcher := fun s ls =>
  if !ls then none else
  let w := s.takeWhile isJsWs
  match s.dropWhile isJsWs with
  | '*' :: '*' :: s2 =>
    let content := s2.takeWhile (fun c => c != '*' && c != '\n')
    if content.isEmpty then none else
    match s2.dropWhile (fun c => c != '*' && c != '\n') with
    | '*' :: '*' :: s4 =>
      let tw := s4.takeWhile isJsWs
      let s5 := s4.dropWhile isJsWs
      if s5.isEmpty then
        some (w ++ ('#' :: '#' :: '#' :: ' ' :: []) ++ content ++ tw, [], false)
      else
        match cutAtLastTerm tw with
        | some (tw1, tw2) =>
          some (w ++ ('#' :: '#' :: '#' :: ' ' :: []) ++ content ++ tw1, tw2 ++ s5,
                isLineTerm ((tw1.getLast?).getD '*'))
        | none => none
    | _ => none
  | _ => none

/-- Rule 2 of `postProcessMarkdown` (`App.tsx:46`):
`/^(\s*)\d+\.\s/gm` replaced by `'$11. '`. -/
def orderedMatcher : Matcher := fun s ls =>
  if !ls then none else
  let w := s.takeWhile isJsWs
  let s1 := s.dropWhile isJsWs
  let d := s1.takeWhile Char.isDigit
  if d.isEmpty then none else
  match s1.dropWhile Char.isDigit with
  | '.' :: c :: rest =>
    if isJsWs c then some (w ++ ('1' :: '.' :: ' ' :: []), rest, isLineTerm c) else none
  | _ => none

/-- List markers `[-*]|\d+\.` after an exact indent; shared by rules 3a/3b. -/
def indentMatcherWith (indent : List Char) (newIndent : List Char) : Matcher := fun s ls =>
  if !ls then none else
  if indent.isPrefixOf s then
    match s.drop indent.length with
    | '-' :: r => some (newIndent ++ ['-'], r, false)
    | '*' :: r => some (newIndent ++ ['*'], r, false)
    | rest =>
      let d := rest.takeWhile Char.isDigit
      if d.isEmpty then none else
      match rest.dropWhile Char.isDigit with
      | '.' :: r => some (newIndent ++ d ++ ['.'], r, false)
      | _ => none
  else none

/-- Rule 3a of `postProcessMarkdown` (`App.tsx:50`):
`/^( {2})([-*]|\d+\.)/gm` replaced by `'    $2'`. -/
def indent2Matcher : Matcher :=
  indentMatcherWith (' ' :: ' ' :: []) (' ' :: ' ' :: ' ' :: ' ' :: [])

/-- Rule 3b of `postProcessMarkdown` (`App.tsx:51`):
`/^( {4})([-*]|\d+\.)/gm` replaced by `'        $2'`. -/
def indent4Matcher : Matcher :=
  indentMatcherWith (' ' :: ' ' :: ' ' :: ' ' :: [])
    (' ' :: ' ' :: ' ' :: ' ' :: ' ' :: ' ' :: ' ' :: ' ' :: [])

/-- Rule 4 of `postProcessMarkdown` (`App.tsx:54`):
`/^(#{1,6}\s+\d+)\\\. /gm` replaced by `'$1. '`. -/
def escapedPeriodMatcher : Matcher := fun s ls =>
  if !ls then none else
  let hs := s.takeWhile (fun c => c == '#')
  if hs.isEmpty || decide (6 < hs.length) then none else
  let s1 := s.dropWhile (fun c => c == '#')
  let w := s1.takeWhile isJsWs
  if w.isEmpty then none else
  let s2 := s1.dropWhile isJsWs
  let d := s2.takeWhile Char.isDigit
  if d.isEmpty then none else
  match s2.dropWhile Char.isDigit with
  | '\\' :: '.' :: ' ' :: rest => some (hs ++ w ++ d ++ ('.' :: ' ' :: []), rest, false)
  | _ => none

/-- Rule 5a of `postProcessMarkdown` (`App.tsx:58`):
`/([^\n])\n(```)/g` replaced by `'$1\n\n$2'`. -/
def fenceBeforeMatcher : Matcher := fun s _ =>
  match s with
  | a :: '\n' :: '`' :: '`' :: '`' :: rest =>
    if a == '\n' then none
    else some ([a, '\n', '\n', '`', '`', '`'], rest, false)
  | _ => none

/-- Rule 5b of `postProcessMarkdown` (`App.tsx:60`):
`/(```)\n([^\n])/g` replaced by `'$1\n\n$2'`. -/
def fenceAfterMatcher : Matcher := fun s _ =>
  match s with
  | '`' :: '`' :: '`' :: '\n' :: b :: rest =>
    if b == '\n' then none
    else some (['`', '`', '`', '\n', '\n', b], rest, isLineTerm b)
  | _ => none

/-- Run one rewrite rule over a whole string, as `clean.replace(re, sub)`. -/
def runRule (m : Matcher) (s : String) : String :=
  String.mk (scan m s.data.length s.data true)

/-- Step 1: fix MD036, emphasis used as heading. -/
def fixEmphasisHeading : String → String := runRule emphasisMatcher

/-- Step 2: fix MD029, renumber every ordered-list marker to `1.`. -/
def fixOrderedMarkers : String → String := runRule orderedMatcher

/-- Step 3a: re-indent 2-space list markers to 4 spaces. -/
def fixIndent2 : String → String := runRule indent2Matcher

/-- Step 3b: re-indent 4-space list markers to 8 spaces. -/
def fixIndent4 : String → String := runRule indent4Matcher

/-- Step 4: un-escape `1\.` inside headings. -/
def fixEscapedPeriod : String → String := runRule escapedPeriodMatcher

/-- Step 5a: insert a blank line before a fence preceded by content. -/
def fixFenceBefore : String → String := runRule fenceBeforeMatcher

/-- Step 5b: insert a blank line after a fence followed by content. -/
def fixFenceAfter : String → String := runRule fenceAfterMatcher

/-- Step 6 (`App.tsx:63`): `clean.trim() + '\n'`. -/
def fixTrailingNewline (s : String) : String :=
  String.mk (jsTrimL s.data ++ ['\n'])

/-- Function `postProcessMarkdown` from `App.tsx:39-66`: the six lint rewrites applied
in source order. -/
def postProcessMarkdown (md : String) : String :=
  fixTrailingNewline (fixFenceAfter (fixFenceBefore (fixEscapedPeriod
    (fixIndent4 (fixIndent2 (fixOrderedMarkers (fixEmphasisHeading md)))))))

/-- The conversion facade `convertToMarkdown` from `App.tsx:69-115`,
parameterized by the external translation front end.  The facade parses the
HTML, normalizes the DOM and feeds the result to the `node-html-markdown`
library; parser and library are third-party code not present in the
repository, so they are abstracted as `translate : String → String` (per
spec §4.3 the translator's output is un-normalized raw Markdown with no
whitespace guarantees).  The repository-authored tail of the facade is the
`postProcessMarkdown` call (`App.tsx:114`). -/
def convertToMarkdown (translate : String → String) (html : String) : String :=
  postProcessMarkdown (translate html)

/-- Lines of a string, as JavaScript `s.split('\n')` (keeps empty pieces). -/
def splitLinesAux : List Char → List Char → List (List Char)
  | [], acc => [acc.reverse]
  | c :: cs, acc =>
    if c == '\n' then acc.reverse :: splitLinesAux cs []
    else splitLinesAux cs (c :: acc)

/-- Lines of a string. -/
def splitLines (l : List Char) : List (List Char) :=
  splitLinesAux l []

/-- The string ends with a line break and nothing else after the last
non-whitespace character: its last character is `'\n'` and the character
before it (when present) is not whitespace at all — in particular not
another `'\n'`, so the trailing line break is exactly one. -/
def endsCleanNl (s : String) : Bool :=
  match s.data.reverse with
  | '\n' :: rest =>
    match rest with
    | [] => true
    | c :: _ => !isJsWs c
  | _ => false

/-- The string ends with exactly one `'\n'`. -/
def endsWithOneNl (s : String) : Bool :=
  match s.data.reverse with
  | '\n' :: rest =>
    match rest with
    | [] => true
    | c :: _ => !(c == '\n')
  | _ => false

/-- No line of the string ends in a space or tab. -/
def noTrailingWsLines (s : String) : Bool :=
  (splitLines s.data).all fun l =>
    match l.reverse with
    | [] => true
    | c :: _ => !(c == ' ' || c == '\t')

/-- A fenced code block delimiter line (starts with three backticks). -/
def isFenceLine (l : List Char) : Bool :=
  ("```".data).isPrefixOf l

/-- Exactly one blank line before and after every fence delimiter line:
each fence line is preceded by one empty line not itself preceded by an
empty line (unless at the document edge), and likewise followed. -/
def exactlyOneBlankAroundFences (s : String) : Bool :=
  let ls := splitLines s.data
  (List.range ls.length).all fun i =>
    !(isFenceLine (ls.getD i [])) ||
    ((decide (i = 0) ||
      (decide (ls.getD (i - 1) [] = []) &&
       (decide (i = 1) || decide (ls.getD (i - 2) [] ≠ [])))) &&
     (decide (i + 1 = ls.length) ||
      (decide (ls.getD (i + 1) [] = []) &&
       (decide (i + 2 = ls.length) || decide (ls.getD (i + 2) [] ≠ [])))))

/-- Regex `/^\*\*[^*]+\*\*$/.test(t)` from `part_001:63`: the whole string is a
single strong-emphasis span (note: unlike the post-processor's rule, `[^*]+`
here may span newlines, and `^`/`$` are whole-string anchors). -/
def isBoldWrapped (t : List Char) : Bool :=
  match t with
  | '*' :: '*' :: rest =>
    let mid := rest.takeWhile (fun c => c != '*')
    !mid.isEmpty && rest.dropWhile (fun c => c != '*') == ('*' :: '*' :: [])
  | _ => false

/-- JavaScript `t.slice(2, -2)`. -/
def sliceInner (t : List Char) : List Char :=
  (((t.drop 2).reverse).drop 2).reverse

/-- The `emphasisHeading` turndown rule replacement from `part_001:59-68`:
a paragraph whose trimmed content is one short bold span becomes an `### `
heading, otherwise the paragraph is emitted unchanged. -/
def emphasisHeadingRule (content : String) : String :=
  let t := jsTrimL content.data
  if isBoldWrapped t && decide (t.length < 100) then
    String.mk (("\n\n### ".data) ++ sliceInner t ++ ("\n\n".data))
  else
    String.mk (("\n\n".data) ++ t ++ ("\n\n".data))

/-- Word-character head test for the `\w+` part of a language annotation. -/
def wordHead : List Char → Bool
  | [] => false
  | c :: _ => isWordChar c

/-- The regex `/(?:language-|lang-)(\w+)/` matches at the head of `l`. -/
def langTagAt (l : List Char) : Bool :=
  (("language-".data).isPrefixOf l && wordHead (l.drop 9)) ||
  (("lang-".data).isPrefixOf l && wordHead (l.drop 5))

/-- Regex `/(?:language-|lang-)(\w+)/.test(s)`: some position of `s` carries a
language annotation. -/
def hasLangTagL : List Char → Bool
  | [] => false
  | c :: cs => langTagAt (c :: cs) || hasLangTagL cs

/-- Language-annotation test on a class string (`App.tsx:96`). -/
def hasLangTag (s : String) : Bool :=
  hasLangTagL s.data

/-- First capture group of `/(?:language-|lang-)(\w+)/` (`part_001:41-42`). -/
def extractLangTagL : List Char → Option (List Char)
  | [] => none
  | c :: cs =>
    if ("language-".data).isPrefixOf (c :: cs) && wordHead ((c :: cs).drop 9) then
      some (((c :: cs).drop 9).takeWhile isWordChar)
    else if ("lang-".data).isPrefixOf (c :: cs) && wordHead ((c :: cs).drop 5) then
      some (((c :: cs).drop 5).takeWhile isWordChar)
    else extractLangTagL cs

/-- Number of (non-overlapping, left-to-right) language annotations in a
class string: how many times `/(?:language-|lang-)(\w+)/g` matches. -/
def countLangTagsAux : Nat → List Char → Nat
  | 0, _ => 0
  | fuel + 1, l =>
    if ("language-".data).isPrefixOf l && wordHead (l.drop 9) then
      countLangTagsAux fuel ((l.drop 9).dropWhile isWordChar) + 1
    else if ("lang-".data).isPrefixOf l && wordHead (l.drop 5) then
      countLangTagsAux fuel ((l.drop 5).dropWhile isWordChar) + 1
    else
      match l with
      | [] => 0
      | _ :: cs => countLangTagsAux fuel cs

/-- Number of language annotations carried by a class string. -/
def countLangTags (s : String) : Nat :=
  countLangTagsAux s.data.length s.data

/-- ASCII whitespace, on which the DOM splits `class` attribute tokens. -/
def domWs (c : Char) : Bool :=
  c == ' ' || c == '\t' || c == '\n' || c == '\x0c' || c == '\r'

/-- Split a `class` attribute value into tokens (maximal non-whitespace
runs), accumulator-style. -/
def splitWsAux : List Char → List Char → List (List Char)
  | [], acc => if acc.isEmpty then [] else [acc.reverse]
  | c :: cs, acc =>
    if domWs c then
      if acc.isEmpty then splitWsAux cs [] else acc.reverse :: splitWsAux cs []
    else splitWsAux cs (c :: acc)

/-- The class attribute's token list. -/
def splitWsTokens (l : List Char) : List (List Char) :=
  splitWsAux l []

/-- Keep the first occurrence of each token (the DOM's ordered set). -/
def dedupAux : List (List Char) → List (List Char) → List (List Char)
  | [], _ => []
  | t :: ts, seen => if t ∈ seen then dedupAux ts seen else t :: dedupAux ts (t :: seen)

/-- Ordered token set of a class string. -/
def classTokens (l : List Char) : List (List Char) :=
  dedupAux (splitWsTokens l) []

/-- Serialize a token list with single spaces. -/
def joinSpace : List (List Char) → List Char
  | [] => []
  | [t] => t
  | t :: ts => t ++ ' ' :: joinSpace ts

/-- DOM `element.classList.add(tok)` seen through `className`: if the token is
already in the class token set nothing changes, otherwise the attribute is
set to the serialized ordered set with the token appended. -/
def classListAddL (cls tok : List Char) : List Char :=
  if tok ∈ classTokens cls then cls else joinSpace (classTokens cls ++ [tok])

/-- DOM `classList.add` on strings. -/
def classListAdd (cls tok : String) : String :=
  String.mk (classListAddL cls.data tok.data)

/-- A `<pre><code>` pair as the normalizer sees it: the code element's class,
its parent `<pre>`'s class, and the code element's text content. -/
structure CodeBlock where
  className : String
  parentClassName : String
  textContent : String
deriving DecidableEq, Repr

/-- Fallback `element.className || parent.className || ''` (`App.tsx:95`): JavaScript
`||` takes the first non-empty string. -/
def existingClassOf (cb : CodeBlock) : String :=
  if cb.className.data.isEmpty then cb.parentClassName else cb.className

/-- The code-block normalization step from `App.tsx:85-102`: trim the text
content; when neither the element's class (nor, if that is empty, the
parent's class) carries a language annotation, attach the inferred
`language-…` class. -/
def processCodeBlock (cb : CodeBlock) : CodeBlock :=
  let t := jsTrim cb.textContent
  if hasLangTag (existingClassOf cb) then
    { cb with textContent := t }
  else
    let lang := detectLanguage t
    if lang.data.isEmpty then { cb with textContent := t }
    else { cb with textContent := t,
                   className := classListAdd cb.className (String.mk ("language-".data ++ lang.data)) }

/-- The `fencedCodeBlock` turndown rule replacement from `part_001:34-46`:
language from the class annotation, else inferred; emission is
`\n\n```lang\n` + trimmed code + `\n```\n\n`. -/
def fencedCodeBlockReplacement (className parentClassName rawCode : String) : String :=
  let classSource := if className.data.isEmpty then parentClassName else className
  let lang :=
    match extractLangTagL classSource.data with
    | some l => String.mk l
    | none => detectLanguage rawCode
  String.mk (("\n\n```".data) ++ lang.data ++ ('\n' :: jsTrimL rawCode.data) ++ ("\n```\n\n".data))

/-- Modelled from the spec: the facade `convertToMarkdown` (`App.tsx:69-115`)
run on the single-code-block document `<pre><code>raw</code></pre>`.  The
DOM parser and the `node-html-markdown` translation are external libraries
not under `src/`; per spec §4.3 the translator emits a fenced block with the
language tag immediately after the opening fence, exactly the fence shape
the repository's own rule in `src/unnamed/part_001:44` produces, so the
translation of the normalized single-block document is modelled by
`fencedCodeBlockReplacement`.  The normalization (`processCodeBlock`) and
the final `postProcessMarkdown` are the repository's own code. -/
def convertPreCode (raw : String) : String :=
  let cb := processCodeBlock { className := "", parentClassName := "", textContent := raw }
  postProcessMarkdown (fencedCodeBlockReplacement cb.className "" cb.textContent)

/-- One ordered-list item line, before renumbering: indentation, the digits
of the marker, a period and a space, then the item text. -/
def renderItem (it : List Char × List Char × List Char) : List Char :=
  it.1 ++ it.2.1 ++ '.' :: ' ' :: it.2.2

/-- The same item line with its marker renumbered to `1.`. -/
def renderItemOne (it : List Char × List Char × List Char) : List Char :=
  it.1 ++ '1' :: '.' :: ' ' :: it.2.2

/-- Join lines with `'\n'`. -/
def joinNl : List (List Char) → List Char
  | [] => []
  | [l] => l
  | l :: ls => l ++ '\n' :: joinNl ls

/-- C1: the lint post-processor is claimed idempotent for every string, but
on `"```\n```\n```\nc"` one pass leaves the third fence delimiter directly
adjacent to the text `c` (the `/g` scan of the fence-spacing rewrites
consumes the shared characters of adjacent fences, so later adjacencies in
the same pass are skipped), and a second pass inserts one more blank line:
`postProcessMarkdown` applied twice differs from one application. -/
theorem c1_not_idempotent_on_adjacent_fences :
    postProcessMarkdown "```\n```\n```\nc" = "```\n\n```\n\n```\nc\n" ∧
    postProcessMarkdown (postProcessMarkdown "```\n```\n```\nc") ≠
      postProcessMarkdown "```\n```\n```\nc" := by
  refine ⟨by decide, by decide⟩

/-- C3: the re-indent step (`App.tsx:50-51`) maps a line indented by exactly
2 spaces to 8 spaces, not the claimed 4: the 4-space rule on line 51 runs on
the output of the 2-space rule on line 50 and re-indents it again.  A line
originally indented 4 spaces is re-indented to 8 spaces as claimed. -/
theorem c3_two_space_reindented_to_eight :
    fixIndent4 (fixIndent2 "  - a") = "        - a" ∧
    fixIndent4 (fixIndent2 "  - a") ≠ "    - a" ∧
    fixIndent4 (fixIndent2 "    - a") = "        - a" := by
  refine ⟨by decide, by decide, by decide⟩

/-- C4: on `<pre><code>def f():\n    pass</code></pre>` the facade does not
return the claimed `fence, python tag, trimmed body, fence` shape: the
fence-spacing rewrite (`App.tsx:58`) also matches the closing fence of the
code block itself and inserts a blank line between the last code line and
the closing fence. -/
theorem c4_end_to_end_extra_blank_line :
    convertPreCode "def f():\n    pass" = "```python\ndef f():\n    pass\n\n```\n" ∧
    convertPreCode "def f():\n    pass" ≠ "```python\ndef f():\n    pass\n```\n" := by
  refine ⟨by decide, by decide⟩

/-- C5: the three language-inference examples of the spec: JavaScript from
`const`/`console.log`, shell from the `git` command prefix, JSON from a
braced snippet. -/
theorem c5_language_inference_examples :
    detectLanguage "const x = 1;\nconsole.log(x);" = "javascript" ∧
    detectLanguage "git status" = "shell" ∧
    detectLanguage "\x7b\"a\":1\x7d" = "json" := by
  refine ⟨by decide, by decide, by decide⟩

/-- C6 counterexample: after post-processing `"a\n\n\n```\nb\n```"` the
first fence delimiter is still preceded by two blank lines — the
post-processor inserts blank lines but never collapses existing ones, so
"exactly one blank line precedes every delimiter" fails. -/
theorem c6_counterexample_two_blank_lines_kept :
    exactlyOneBlankAroundFences (postProcessMarkdown "a\n\n\n```\nb\n```") = false := by
  decide

/-- C6 amended: where a fence delimiter is adjacent to non-blank content a
blank line is inserted (first conjunct: both fences of a block adjacent to
text get separated), but only insertion is guaranteed — pre-existing runs of
blank lines are preserved, giving at least one rather than exactly one blank
line (second conjunct). -/
theorem c6_blank_lines_inserted_not_collapsed :
    postProcessMarkdown "a\n```\nb\n```" = "a\n\n```\n\nb\n\n```\n" ∧
    postProcessMarkdown "a\n\n\n```\nb\n```" = "a\n\n\n```\n\nb\n\n```\n" := by
  refine ⟨by decide, by decide⟩

/-- C2 counterexample: the translator is external library code with no
whitespace guarantees on its output (spec §4.3), and the post-processor only
trims the document ends, so a translated Markdown body `"a \nb"` reaches the
caller with a trailing space kept on its first line: the facade's output can
contain trailing whitespace on a line. -/
theorem c2_counterexample_trailing_space_kept :
    ¬ (endsWithOneNl (convertToMarkdown (fun _ => "a \nb") "") = true ∧
       noTrailingWsLines (convertToMarkdown (fun _ => "a \nb") "") = true) := by
  decide

/-- C10: the post-processor's line rewrites do not recognize fenced code
block interiors: inside a fenced block, the bold-only line `**x**` becomes
the heading `### x` and the ordered-list marker `5. ` becomes `1. `,
altering the code block's content. -/
theorem c10_rewrites_apply_inside_fences :
    postProcessMarkdown "```\n**x**\n5. y\n```" = "```\n\n### x\n1. y\n\n```\n" ∧
    containsSub ("### x".data) (postProcessMarkdown "```\n**x**\n5. y\n```").data = true ∧
    containsSub ("**x**".data) (postProcessMarkdown "```\n**x**\n5. y\n```").data = false ∧
    containsSub ("5. ".data) (postProcessMarkdown "```\n**x**\n5. y\n```").data = false := by
  refine ⟨by decide, by decide, by decide, by decide⟩

/-- C9 counterexample: a code element whose class already carries two
language annotations is left untouched by the normalizer, so it does not
carry exactly one language tag after normalization. -/
theorem c9_counterexample_two_tags_kept :
    countLangTags (processCodeBlock
      { className := "language-a language-b", parentClassName := "",
        textContent := "x" }).className ≠ 1 := by
  decide

theorem isDigit_false_of_jsWs (c : Char) (h : isJsWs c = true) : c.isDigit = false := by
  unfold isJsWs at h
  simp only [Bool.or_eq_true, beq_iff_eq, Bool.and_eq_true, decide_eq_true_eq, or_assoc] at h
  rcases h with h|h|h|h|h|h|h|h|hr|h|h|h|h|h|h <;> try (subst h; decide)
  obtain ⟨h1, h2⟩ := hr
  have n1 : (Char.ofNat 8192).toNat ≤ c.toNat := h1
  have e1 : (Char.ofNat 8192).toNat = 8192 := by decide
  simp only [Char.isDigit, Bool.and_eq_false_iff, decide_eq_false_iff_not]
  right
  intro hle
  have n2 : c.toNat ≤ 57 := hle
  rw [e1] at n1
  omega

theorem jsWs_false_of_digit (c : Char) (h : c.isDigit = true) : isJsWs c = false := by
  cases hw : isJsWs c
  · rfl
  · rw [isDigit_false_of_jsWs c hw] at h; exact absurd h (by simp)

theorem dropWhile_head_false {α : Type} (p : α → Bool) :
    ∀ (l : List α) (c : α) (cs : List α), l.dropWhile p = c :: cs → p c = false := by
  intro l
  induction l with
  | nil => intro c cs h; simp [List.dropWhile] at h
  | cons a as ih =>
    intro c cs h
    by_cases hp : p a = true
    · rw [List.dropWhile_cons_of_pos hp] at h
      exact ih c cs h
    · rw [List.dropWhile_cons_of_neg hp] at h
      cases h
      simpa using hp

theorem endsCleanNl_fixTrailingNewline (s : String) :
    endsCleanNl (fixTrailingNewline s) = true := by
  show endsCleanNl (String.mk (jsTrimL s.data ++ ['\n'])) = true
  unfold endsCleanNl jsTrimL
  simp only [List.reverse_append, List.reverse_cons, List.reverse_nil, List.nil_append,
    List.reverse_reverse]
  cases h : (s.data.dropWhile isJsWs).reverse.dropWhile isJsWs with
  | nil => rfl
  | cons c rest =>
    show (!isJsWs c) = true
    rw [dropWhile_head_false isJsWs _ c rest h]
    rfl

/-- C2 amended: for every translation front end and every input HTML string,
the facade's output ends with exactly one trailing line break and no
whitespace precedes that final break: the last character is `'\n'` and the
character before it, when present, is not whitespace (so in particular not a
second line break).  Interior lines may retain trailing whitespace, since
the post-processor trims only the document ends. -/
theorem c2_output_trailing_form (translate : String → String) (html : String) :
    endsCleanNl (convertToMarkdown translate html) = true := by
  unfold convertToMarkdown postProcessMarkdown
  exact endsCleanNl_fixTrailingNewline _

theorem takeWhile_append_pos {α : Type} (p : α → Bool) :
    ∀ (l1 l2 : List α), (∀ c ∈ l1, p c = true) →
      (l1 ++ l2).takeWhile p = l1 ++ l2.takeWhile p := by
  intro l1
  induction l1 with
  | nil => intro l2 _; simp
  | cons a as ih =>
    intro l2 h
    have ha : p a = true := h a (by simp)
    simp only [List.cons_append, List.takeWhile_cons_of_pos ha, List.cons.injEq, true_and]
    exact ih l2 (fun c hc => h c (by simp [hc]))

theorem dropWhile_append_pos {α : Type} (p : α → Bool) :
    ∀ (l1 l2 : List α), (∀ c ∈ l1, p c = true) →
      (l1 ++ l2).dropWhile p = l2.dropWhile p := by
  intro l1
  induction l1 with
  | nil => intro l2 _; simp
  | cons a as ih =>
    intro l2 h
    have ha : p a = true := h a (by simp)
    simp only [List.cons_append, List.dropWhile_cons_of_pos ha]
    exact ih l2 (fun c hc => h c (by simp [hc]))

theorem scan_zero (m : Matcher) (l : List Char) (b : Bool) : scan m 0 l b = l := by
  cases l <;> rfl

theorem scan_nil (m : Matcher) (fuel : Nat) (b : Bool) : scan m fuel [] b = [] := by
  cases fuel <;> rfl

theorem scan_match (m : Matcher) (fuel : Nat) (s : List Char) (ls : Bool)
    (rep rest : List Char) (ls' : Bool) (hne : s ≠ [])
    (h : m s ls = some (rep, rest, ls')) :
    scan m (fuel + 1) s ls = rep ++ scan m fuel rest ls' := by
  cases s with
  | nil => exact absurd rfl hne
  | cons c cs => simp [scan, h]

theorem scan_emit (m : Matcher) (fuel : Nat) (c : Char) (cs : List Char) (ls : Bool)
    (h : m (c :: cs) ls = none) :
    scan m (fuel + 1) (c :: cs) ls = c :: scan m fuel cs (isLineTerm c) := by
  simp [scan, h]

theorem orderedMatcher_skip (s : List Char) : orderedMatcher s false = none := rfl

theorem scan_ordered_id :
    ∀ (fuel : Nat) (l : List Char), (∀ c ∈ l, isLineTerm c = false) →
      scan orderedMatcher fuel l false = l := by
  intro fuel
  induction fuel with
  | zero => intro l _; exact scan_zero _ _ _
  | succ n ih =>
    intro l h
    cases l with
    | nil => rfl
    | cons c cs =>
      rw [scan_emit _ _ _ _ _ (orderedMatcher_skip _)]
      rw [h c (by simp)]
      rw [ih cs (fun d hd => h d (by simp [hd]))]

theorem scan_ordered_seg :
    ∀ (seg : List Char) (fuel : Nat) (l : List Char), (∀ c ∈ seg, isLineTerm c = false) →
      scan orderedMatcher fuel (seg ++ '\n' :: l) false =
        seg ++ '\n' :: scan orderedMatcher (fuel - (seg.length + 1)) l true := by
  intro seg
  induction seg with
  | nil =>
    intro fuel l _
    cases fuel with
    | zero => simp [scan_zero]
    | succ n =>
      rw [List.nil_append]
      rw [scan_emit _ _ _ _ _ (orderedMatcher_skip _)]
      simp [show isLineTerm '\n' = true from rfl]
  | cons a as ih =>
    intro fuel l h
    cases fuel with
    | zero => simp [scan_zero]
    | succ n =>
      rw [List.cons_append, scan_emit _ _ _ _ _ (orderedMatcher_skip _)]
      rw [h a (by simp)]
      rw [ih n l (fun d hd => h d (by simp [hd]))]
      have : n - (as.length + 1) = n + 1 - ((a :: as).length + 1) := by
        simp only [List.length_cons]
        omega
      rw [this]
      rfl

theorem orderedMatcher_item (ind ds rest : List Char)
    (hind : ∀ c ∈ ind, isJsWs c = true)
    (hds : ds ≠ []) (hdig : ∀ c ∈ ds, c.isDigit = true) :
    orderedMatcher (ind ++ (ds ++ '.' :: ' ' :: rest)) true =
      some (ind ++ '1' :: '.' :: ' ' :: [], rest, false) := by
  cases ds with
  | nil => exact absurd rfl hds
  | cons d0 ds' =>
    have hd0 : isJsWs d0 = false := jsWs_false_of_digit d0 (hdig d0 (by simp))
    have hdigall : ∀ c ∈ d0 :: ds', Char.isDigit c = true := hdig
    rw [List.cons_append]
    have e1 : List.takeWhile isJsWs (ind ++ d0 :: (ds' ++ '.' :: ' ' :: rest)) = ind := by
      rw [takeWhile_append_pos isJsWs ind _ hind,
          List.takeWhile_cons_of_neg (by simp [hd0]), List.append_nil]
    have e2 : List.dropWhile isJsWs (ind ++ d0 :: (ds' ++ '.' :: ' ' :: rest)) =
        d0 :: (ds' ++ '.' :: ' ' :: rest) := by
      rw [dropWhile_append_pos isJsWs ind _ hind,
          List.dropWhile_cons_of_neg (by simp [hd0])]
    have e3 : List.takeWhile Char.isDigit (d0 :: (ds' ++ '.' :: ' ' :: rest)) = d0 :: ds' := by
      have h3 := takeWhile_append_pos Char.isDigit (d0 :: ds') ('.' :: ' ' :: rest) hdigall
      rw [List.cons_append] at h3
      rw [h3, List.takeWhile_cons_of_neg (by decide), List.append_nil]
    have e4 : List.dropWhile Char.isDigit (d0 :: (ds' ++ '.' :: ' ' :: rest)) =
        '.' :: ' ' :: rest := by
      have h4 := dropWhile_append_pos Char.isDigit (d0 :: ds') ('.' :: ' ' :: rest) hdigall
      rw [List.cons_append] at h4
      rw [h4, List.dropWhile_cons_of_neg (by decide)]
    unfold orderedMatcher
    rw [if_neg (by decide)]
    simp only [e1, e2, e3, e4, List.isEmpty_cons]
    simp [show isJsWs ' ' = true from rfl, show isLineTerm ' ' = false from rfl]

theorem scan_ordered_items :
    ∀ (items : List (List Char × List Char × List Char)) (fuel : Nat),
      (joinNl (items.map renderItem)).length ≤ fuel →
      (∀ it ∈ items,
        (∀ c ∈ it.1, isJsWs c = true ∧ isLineTerm c = false) ∧
        it.2.1 ≠ [] ∧ (∀ c ∈ it.2.1, c.isDigit = true) ∧
        (∀ c ∈ it.2.2, isLineTerm c = false)) →
      scan orderedMatcher fuel (joinNl (items.map renderItem)) true =
        joinNl (items.map renderItemOne) := by
  intro items
  induction items with
  | nil =>
    intro fuel _ _
    exact scan_nil _ _ _
  | cons it tl ih =>
    intro fuel hfuel hgood
    obtain ⟨hws, hds, hdig, hrest⟩ := hgood it (by simp)
    obtain ⟨ind, ds, rest⟩ := it
    have hlen : 0 < ds.length := List.length_pos.mpr hds
    cases tl with
    | nil =>
      cases fuel with
      | zero =>
        exfalso
        simp [joinNl, renderItem, List.length_append] at hfuel
      | succ n =>
        show scan orderedMatcher (n + 1) (renderItem (ind, ds, rest)) true =
          renderItemOne (ind, ds, rest)
        have hshape : renderItem (ind, ds, rest) = ind ++ (ds ++ '.' :: ' ' :: rest) := by
          simp [renderItem, List.append_assoc]
        rw [hshape]
        rw [scan_match _ _ _ _ _ _ _ (by simp)
          (orderedMatcher_item ind ds rest (fun c hc => (hws c hc).1) hds hdig)]
        rw [scan_ordered_id n rest hrest]
        simp [renderItemOne, List.append_assoc]
    | cons it2 tl2 =>
      cases fuel with
      | zero =>
        exfalso
        simp [joinNl, renderItem, List.length_append] at hfuel
      | succ n =>
        have hjoin : joinNl (List.map renderItem ((ind, ds, rest) :: it2 :: tl2)) =
            ind ++ (ds ++ '.' :: ' ' ::
              (rest ++ '\n' :: joinNl (List.map renderItem (it2 :: tl2)))) := by
          simp [joinNl, renderItem, List.append_assoc]
        rw [hjoin] at hfuel ⊢
        rw [scan_match _ _ _ _ _ _ _ (by simp)
          (orderedMatcher_item ind ds (rest ++ '\n' :: joinNl (List.map renderItem (it2 :: tl2)))
            (fun c hc => (hws c hc).1) hds hdig)]
        rw [scan_ordered_seg rest n _ hrest]
        rw [ih (n - (rest.length + 1)) ?hf (fun x hx => hgood x (by simp [hx]))]
        · simp [joinNl, renderItemOne, List.append_assoc]
        case hf =>
          simp only [List.length_append, List.length_cons] at hfuel
          omega

/-- C7: the renumbering step rewrites every ordered-list marker — optional
leading whitespace, digits, a period and a space — to the literal marker
`1.`: for any list of item lines (each an indent of non-line-breaking
whitespace, a nonempty digit run, `'. '`, and line-break-free text) the
rewrite replaces every marker by `1.` and changes nothing else; and the
spec's two concrete normalization examples hold through the full
post-processor. -/
theorem c7_ordered_markers_renumbered :
    (∀ items : List (List Char × List Char × List Char),
      (∀ it ∈ items,
        (∀ c ∈ it.1, isJsWs c = true ∧ isLineTerm c = false) ∧
        it.2.1 ≠ [] ∧ (∀ c ∈ it.2.1, c.isDigit = true) ∧
        (∀ c ∈ it.2.2, isLineTerm c = false)) →
      fixOrderedMarkers (String.mk (joinNl (items.map renderItem))) =
        String.mk (joinNl (items.map renderItemOne))) ∧
    postProcessMarkdown "1. a\n2. b\n3. c" = "1. a\n1. b\n1. c\n" ∧
    postProcessMarkdown "1. a\n1. b\n1. c" = "1. a\n1. b\n1. c\n" := by
  refine ⟨?_, by decide, by decide⟩
  intro items h
  exact congrArg String.mk (scan_ordered_items items _ (le_refl _) h)

/-- Witness for C7: the universal part applied to the single item
`"  34. x"` renumbers it to `"  1. x"`. -/
theorem c7_witness_concrete_marker :
    fixOrderedMarkers "  34. x" = "  1. x" :=
  c7_ordered_markers_renumbered.1 [(" ".data ++ " ".data, ['3', '4'], "x".data)] (by decide)

theorem jsTrimL_bold (inner : List Char) :
    jsTrimL ('*' :: '*' :: (inner ++ '*' :: '*' :: [])) =
      '*' :: '*' :: (inner ++ '*' :: '*' :: []) := by
  unfold jsTrimL
  rw [List.dropWhile_cons_of_neg (by decide)]
  rw [show ('*' :: '*' :: (inner ++ '*' :: '*' :: [])).reverse =
        '*' :: '*' :: (inner.reverse ++ '*' :: '*' :: []) from by simp]
  rw [List.dropWhile_cons_of_neg (by decide)]
  rw [show ('*' :: '*' :: (inner.reverse ++ '*' :: '*' :: [])).reverse =
        '*' :: '*' :: (inner ++ '*' :: '*' :: []) from by simp]

theorem isBoldWrapped_bold (inner : List Char) (hne : inner ≠ [])
    (hstar : ∀ c ∈ inner, c ≠ '*') :
    isBoldWrapped ('*' :: '*' :: (inner ++ '*' :: '*' :: [])) = true := by
  unfold isBoldWrapped
  have ht : (inner ++ '*' :: '*' :: []).takeWhile (fun c => c != '*') = inner := by
    rw [takeWhile_append_pos _ inner _ (fun c hc => by simp [hstar c hc]),
        List.takeWhile_cons_of_neg (by decide), List.append_nil]
  have hd : (inner ++ '*' :: '*' :: []).dropWhile (fun c => c != '*') = '*' :: '*' :: [] := by
    rw [dropWhile_append_pos _ inner _ (fun c hc => by simp [hstar c hc]),
        List.dropWhile_cons_of_neg (by decide)]
  simp [ht, hd, hne]

theorem sliceInner_bold (inner : List Char) :
    sliceInner ('*' :: '*' :: (inner ++ '*' :: '*' :: [])) = inner := by
  unfold sliceInner
  simp

/-- C8: a paragraph whose entire (trimmed) content is a short strong-
emphasis span is turned into a level-3 heading with the `**` stripped and
`### ` substituted: universally for any star-free nonempty inner text of
wrapped length under 100, via the `emphasisHeading` turndown rule of
`part_001:59-68`; and concretely, `**Section Title**` becomes
`### Section Title` both through that rule and through the post-processor's
own bold-line rewrite. -/
theorem c8_bold_paragraph_promoted :
    (∀ inner : List Char, inner ≠ [] → (∀ c ∈ inner, c ≠ '*') →
      inner.length + 4 < 100 →
      emphasisHeadingRule (String.mk ('*' :: '*' :: (inner ++ '*' :: '*' :: []))) =
        String.mk ("\n\n### ".data ++ inner ++ "\n\n".data)) ∧
    emphasisHeadingRule "**Section Title**" = "\n\n### Section Title\n\n" ∧
    postProcessMarkdown "**Section Title**" = "### Section Title\n" := by
  refine ⟨?_, by decide, by decide⟩
  intro inner hne hstar hlen
  have elen : ('*' :: '*' :: (inner ++ '*' :: '*' :: [])).length < 100 := by
    simp only [List.length_cons, List.length_append, List.length_nil]
    omega
  unfold emphasisHeadingRule
  simp only [jsTrimL_bold inner, isBoldWrapped_bold inner hne hstar,
    sliceInner_bold inner, decide_eq_true elen, Bool.and_self, if_pos]

/-- Witness for C8: the universal part applied to the inner text `Hi`. -/
theorem c8_witness_concrete_heading :
    emphasisHeadingRule "**Hi**" = "\n\n### Hi\n\n" :=
  c8_bold_paragraph_promoted.1 "Hi".data (by decide) (by decide) (by decide)

theorem detectLanguage_mem (code : String) :
    detectLanguage code = "text" ∨ detectLanguage code = "shell" ∨
    detectLanguage code = "javascript" ∨ detectLanguage code = "python" ∨
    detectLanguage code = "html" ∨ detectLanguage code = "json" ∨
    detectLanguage code = "css" := by
  simp only [detectLanguage]
  split
  · exact Or.inl rfl
  · split
    · exact Or.inr (Or.inl rfl)
    · split
      · exact Or.inr (Or.inr (Or.inl rfl))
      · split
        · exact Or.inr (Or.inr (Or.inr (Or.inl rfl)))
        · split
          · exact Or.inr (Or.inr (Or.inr (Or.inr (Or.inl rfl))))
          · split
            · exact Or.inr (Or.inr (Or.inr (Or.inr (Or.inr (Or.inl rfl)))))
            · split
              · exact Or.inr (Or.inr (Or.inr (Or.inr (Or.inr (Or.inr rfl)))))
              · exact Or.inr (Or.inl rfl)

theorem detectLanguage_wordHead (code : String) :
    wordHead (detectLanguage code).data = true := by
  rcases detectLanguage_mem code with h | h | h | h | h | h | h <;> rw [h] <;> decide

theorem detectLanguage_ne_empty (code : String) :
    (detectLanguage code).data.isEmpty = false := by
  rcases detectLanguage_mem code with h | h | h | h | h | h | h <;> rw [h] <;> decide

theorem isPrefixOf_append_self (pre l : List Char) : pre.isPrefixOf (pre ++ l) = true := by
  induction pre with
  | nil => cases l <;> rfl
  | cons a as ih => simp [List.isPrefixOf, ih]

theorem isPrefixOf_extend (pre : List Char) :
    ∀ (x l2 : List Char), pre.isPrefixOf x = true → pre.isPrefixOf (x ++ l2) = true := by
  induction pre with
  | nil =>
    intro x l2 _
    cases x with
    | nil => cases l2 <;> rfl
    | cons b bs => rfl
  | cons a as ih =>
    intro x l2 h
    cases x with
    | nil => simp [List.isPrefixOf] at h
    | cons b bs =>
      simp only [List.isPrefixOf, Bool.and_eq_true, beq_iff_eq] at h
      simp only [List.cons_append, List.isPrefixOf, Bool.and_eq_true, beq_iff_eq]
      exact ⟨h.1, ih bs l2 h.2⟩

theorem isPrefixOf_length_le (pre : List Char) :
    ∀ (x : List Char), pre.isPrefixOf x = true → pre.length ≤ x.length := by
  induction pre with
  | nil => intro x _; simp
  | cons a as ih =>
    intro x h
    cases x with
    | nil => simp [List.isPrefixOf] at h
    | cons b bs =>
      simp only [List.isPrefixOf, Bool.and_eq_true] at h
      simp only [List.length_cons]
      exact Nat.succ_le_succ (ih bs h.2)

theorem wordHead_append (x l2 : List Char) (h : wordHead x = true) :
    wordHead (x ++ l2) = true := by
  cases x with
  | nil => exact absurd h (by simp [wordHead])
  | cons c cs => exact h

theorem langTagAt_extend (x l2 : List Char) (h : langTagAt x = true) :
    langTagAt (x ++ l2) = true := by
  unfold langTagAt at h ⊢
  simp only [Bool.or_eq_true, Bool.and_eq_true] at h ⊢
  rcases h with ⟨hp, hw⟩ | ⟨hp, hw⟩
  · left
    refine ⟨isPrefixOf_extend _ x l2 hp, ?_⟩
    have h9 : 9 ≤ x.length := by simpa using isPrefixOf_length_le _ x hp
    rw [List.drop_append_of_le_length h9]
    exact wordHead_append _ _ hw
  · right
    refine ⟨isPrefixOf_extend _ x l2 hp, ?_⟩
    have h5 : 5 ≤ x.length := by simpa using isPrefixOf_length_le _ x hp
    rw [List.drop_append_of_le_length h5]
    exact wordHead_append _ _ hw

theorem hasLangTagL_append_left (l1 l2 : List Char) (h : hasLangTagL l1 = true) :
    hasLangTagL (l1 ++ l2) = true := by
  induction l1 with
  | nil => simp [hasLangTagL] at h
  | cons c cs ih =>
    simp only [hasLangTagL, Bool.or_eq_true] at h
    simp only [List.cons_append, hasLangTagL, Bool.or_eq_true]
    rcases h with h | h
    · left
      have := langTagAt_extend (c :: cs) l2 h
      rwa [List.cons_append] at this
    · right; exact ih h

theorem hasLangTagL_append_right (l1 l2 : List Char) (h : hasLangTagL l2 = true) :
    hasLangTagL (l1 ++ l2) = true := by
  induction l1 with
  | nil => exact h
  | cons c cs ih =>
    simp only [List.cons_append, hasLangTagL, Bool.or_eq_true]
    right; exact ih

theorem joinSpace_ends (ts : List (List Char)) (t : List Char) :
    ∃ pre, joinSpace (ts ++ [t]) = pre ++ t := by
  induction ts with
  | nil => exact ⟨[], rfl⟩
  | cons a ts' ih =>
    obtain ⟨pre, hp⟩ := ih
    cases ts' with
    | nil => exact ⟨a ++ [' '], by simp [joinSpace]⟩
    | cons b ts'' =>
      refine ⟨a ++ ' ' :: pre, ?_⟩
      show a ++ ' ' :: joinSpace ((b :: ts'') ++ [t]) = (a ++ ' ' :: pre) ++ t
      rw [hp]
      simp

theorem splitWsAux_token_occurs :
    ∀ (l acc t : List Char), t ∈ splitWsAux l acc → ∃ u v, acc.reverse ++ l = u ++ (t ++ v) := by
  intro l
  induction l with
  | nil =>
    intro acc t h
    by_cases ha : acc.isEmpty
    · simp [splitWsAux, ha] at h
    · simp only [splitWsAux, ha, Bool.false_eq_true, if_false, List.mem_singleton] at h
      subst h
      exact ⟨[], [], by simp⟩
  | cons c cs ih =>
    intro acc t h
    simp only [splitWsAux] at h
    by_cases hc : domWs c = true
    · rw [if_pos hc] at h
      by_cases ha : acc.isEmpty = true
      · rw [if_pos ha] at h
        obtain ⟨u, v, huv⟩ := ih [] t h
        refine ⟨acc.reverse ++ c :: u, v, ?_⟩
        simp only [List.reverse_nil, List.nil_append] at huv
        simp [huv, List.append_assoc]
      · rw [if_neg ha] at h
        rcases List.mem_cons.mp h with h | h
        · subst h
          exact ⟨[], c :: cs, by simp⟩
        · obtain ⟨u, v, huv⟩ := ih [] t h
          refine ⟨acc.reverse ++ c :: u, v, ?_⟩
          simp only [List.reverse_nil, List.nil_append] at huv
          simp [huv, List.append_assoc]
    · rw [if_neg hc] at h
      obtain ⟨u, v, huv⟩ := ih (c :: acc) t h
      refine ⟨u, v, ?_⟩
      rw [List.reverse_cons, List.append_assoc] at huv
      simpa using huv

theorem dedupAux_subset :
    ∀ (ts seen : List (List Char)) (t : List Char), t ∈ dedupAux ts seen → t ∈ ts := by
  intro ts
  induction ts with
  | nil => intro seen t h; simp [dedupAux] at h
  | cons a ts' ih =>
    intro seen t h
    simp only [dedupAux] at h
    by_cases ha : a ∈ seen
    · rw [if_pos ha] at h
      exact List.mem_cons_of_mem _ (ih _ _ h)
    · rw [if_neg ha] at h
      rcases List.mem_cons.mp h with h | h
      · exact h ▸ List.mem_cons_self _ _
      · exact List.mem_cons_of_mem _ (ih _ _ h)

theorem hasLangTagL_of_head (l : List Char) (h : langTagAt l = true) : hasLangTagL l = true := by
  cases l with
  | nil => exact absurd h (by decide)
  | cons c cs => simp [hasLangTagL, h]

theorem langTagAt_language_token (x : List Char) (hw : wordHead x = true) :
    langTagAt ("language-".data ++ x) = true := by
  unfold langTagAt
  simp only [Bool.or_eq_true, Bool.and_eq_true]
  left
  refine ⟨isPrefixOf_append_self _ _, ?_⟩
  rw [List.drop_append_of_le_length (by decide : 9 ≤ ("language-".data).length)]
  rw [show ("language-".data).drop 9 = [] from by decide, List.nil_append]
  exact hw

theorem hasLangTag_classListAdd (cls tok : List Char) (htok : hasLangTagL tok = true) :
    hasLangTagL (classListAddL cls tok) = true ∨ hasLangTagL cls = true := by
  unfold classListAddL
  by_cases hm : tok ∈ classTokens cls
  · rw [if_pos hm]
    have htk : tok ∈ splitWsTokens cls := dedupAux_subset _ _ _ hm
    obtain ⟨u, v, huv⟩ := splitWsAux_token_occurs cls [] tok htk
    simp only [List.reverse_nil, List.nil_append] at huv
    right
    rw [huv]
    exact hasLangTagL_append_right _ _ (hasLangTagL_append_left _ _ htok)
  · rw [if_neg hm]
    left
    obtain ⟨pre, hp⟩ := joinSpace_ends (classTokens cls) tok
    rw [hp]
    exact hasLangTagL_append_right _ _ htok

/-- C9 amended: after normalization every code element carries at least one
language tag on itself or (when its own class is empty and already
annotated) on its container: an existing annotation on the consulted class
string is never modified, let alone overwritten — the block is left as is
apart from text trimming; when no annotation is found, exactly the inferred
`language-…` class is appended; and a code element whose text is empty after
trimming receives `language-text`.  ("Exactly one" fails: pre-existing
multiple tags are kept, see the counterexample.) -/
theorem c9_every_block_tagged (cb : CodeBlock) :
    (hasLangTag (processCodeBlock cb).className = true ∨
      hasLangTag cb.parentClassName = true) ∧
    (hasLangTag (existingClassOf cb) = true →
      processCodeBlock cb = { cb with textContent := jsTrim cb.textContent }) ∧
    (hasLangTag (existingClassOf cb) = false →
      (processCodeBlock cb).className = classListAdd cb.className
        (String.mk ("language-".data ++ (detectLanguage (jsTrim cb.textContent)).data))) ∧
    (hasLangTag (existingClassOf cb) = false → jsTrimL cb.textContent.data = [] →
      (processCodeBlock cb).className = classListAdd cb.className "language-text") := by
  by_cases hex : hasLangTag (existingClassOf cb) = true
  · have hpc : processCodeBlock cb = { cb with textContent := jsTrim cb.textContent } := by
      unfold processCodeBlock
      rw [if_pos hex]
    refine ⟨?_, fun _ => hpc, fun hf => absurd hex (by simp [hf]),
      fun hf _ => absurd hex (by simp [hf])⟩
    rw [hpc]
    unfold existingClassOf at hex
    by_cases hcn : cb.className.data.isEmpty = true
    · rw [if_pos hcn] at hex
      right; exact hex
    · rw [if_neg hcn] at hex
      left; exact hex
  · have hex' : hasLangTag (existingClassOf cb) = false := by
      simpa using hex
    have hne := detectLanguage_ne_empty (jsTrim cb.textContent)
    have hpc : (processCodeBlock cb).className = classListAdd cb.className
        (String.mk ("language-".data ++ (detectLanguage (jsTrim cb.textContent)).data)) := by
      unfold processCodeBlock
      rw [if_neg (by simp [hex']), if_neg (by simp [hne])]
    refine ⟨?_, fun ht => absurd ht (by simp [hex']), fun _ => hpc, fun _ htr => ?_⟩
    · have htok : hasLangTagL ("language-".data ++
          (detectLanguage (jsTrim cb.textContent)).data) = true :=
        hasLangTagL_of_head _ (langTagAt_language_token _ (detectLanguage_wordHead _))
      rcases hasLangTag_classListAdd cb.className.data _ htok with h | h
      · left
        rw [hpc]
        exact h
      · exfalso
        unfold existingClassOf at hex'
        by_cases hcn : cb.className.data.isEmpty = true
        · rw [List.isEmpty_iff.mp hcn] at h
          exact absurd h (by decide)
        · rw [if_neg hcn] at hex'
          exact absurd (show hasLangTag cb.className = true from h) (by simp [hex'])
    · rw [hpc]
      have e0 : jsTrimL (jsTrim cb.textContent).data = [] := by
        show jsTrimL (jsTrimL cb.textContent.data) = []
        rw [htr]
        rfl
      have edet : detectLanguage (jsTrim cb.textContent) = "text" := by
        simp [detectLanguage, e0]
      rw [edet]
      rw [show String.mk ("language-".data ++ ("text" : String).data) = "language-text" from by decide]

/-- Witness for C9: a block with empty class and whitespace-only text gets
exactly the `language-text` class attached. -/
theorem c9_witness_empty_text_tag :
    (processCodeBlock
      { className := "", parentClassName := "", textContent := "  " }).className =
      classListAdd "" "language-text" :=
  (c9_every_block_tagged _).2.2.2 (by decide) (by decide)
